import Mathlib

/-!
Shallow embedding of the 5x5 Q-learning Tic-Tac-Toe program
(`Tic_Tac_Toe_5.py`) and verification of its specification claims.

Cells hold `' '`, `'X'` or `'O'` in the source; they are modelled by the
inductive type `Cell`.  Boards are 5x5 lists of lists of cells.  Q-values
are Python floats; they are modelled by rational numbers.  The two
randomness sources of the program (the exploration draw and the random
action choice) are modelled as oracle inputs: a boolean saying whether the
uniform draw fell below the exploration rate, and a natural number whose
reduction mod 25 is the uniformly drawn action index of `random.randint`.
Python `KeyError` on a dictionary lookup is modelled by `Option`:
a `none` result is the crash.
-/

set_option maxRecDepth 10000

namespace TTT

/-- A cell of the board: `' '`, `'X'` or `'O'` in the Python source. -/
inductive Cell where
  | empty
  | X
  | O
deriving DecidableEq, Repr

/-- The board is a list of rows of cells (`board` is a list of lists). -/
abbrev Board := List (List Cell)

/-- The `BOARD_SIZE = 5` in the source. -/
def BOARD_SIZE : Nat := 5

/-- The `EXPLORATION_RATE = 1.0`, the initial exploration rate. -/
def EXPLORATION_RATE : ℚ := 1

/-- The `EXPLORATION_DECAY = 0.995`. -/
def EXPLORATION_DECAY : ℚ := 995 / 1000

/-- The `LEARNING_RATE = 0.1`. -/
def LEARNING_RATE : ℚ := 1 / 10

/-- The `DISCOUNT_FACTOR = 0.9`. -/
def DISCOUNT_FACTOR : ℚ := 9 / 10

/-- The hashable key used for the Q-table: the tuple of tuples built by
`board_to_tuple`.  A distinct type from `Board` mirrors the distinct
Python type (tuple of tuples vs list of lists). -/
structure StateKey where
  rows : List (List Cell)
deriving DecidableEq, Repr

/-- The `board_to_tuple(board)`: `tuple(tuple(row) for row in board)` — copies
every row (and every cell) of the board into an immutable key. -/
def board_to_tuple (board : Board) : StateKey :=
  ⟨board.map (fun row => row.map (fun cell => cell))⟩

/-- The `board[i][j]` (reads of in-range indices in the source; out of range
reads default to `empty` in the model, the source never performs them). -/
def getCell (board : Board) (i j : Nat) : Cell :=
  (board.getD i []).getD j Cell.empty

/-- The `board[i][j] = c` (in-range writes in the source; an out-of-range
write is a no-op in the model, the source never performs one). -/
def setCell (board : Board) (i j : Nat) (c : Cell) : Board :=
  board.set i ((board.getD i []).set j c)

/-- The `[[' ' for _ in range(BOARD_SIZE)] for _ in range(BOARD_SIZE)]`. -/
def empty_board : Board :=
  List.replicate BOARD_SIZE (List.replicate BOARD_SIZE Cell.empty)

/-- The `is_winner(board, player)`: some full row, full column, or one of the
two main diagonals holds `player` everywhere. -/
def is_winner (board : Board) (player : Cell) : Bool :=
  ((List.range BOARD_SIZE).any fun i =>
      ((List.range BOARD_SIZE).all fun j => getCell board i j == player) ||
      ((List.range BOARD_SIZE).all fun j => getCell board j i == player)) ||
  ((List.range BOARD_SIZE).all fun i => getCell board i i == player) ||
  ((List.range BOARD_SIZE).all fun i =>
      getCell board i (BOARD_SIZE - i - 1) == player)

/-- The `is_draw(board)`: `all(all(cell != ' ' for cell in row) for row in board)`
— every cell is non-empty.  (The source checks fullness only.) -/
def is_draw (board : Board) : Bool :=
  board.all fun row => row.all fun cell => !(cell == Cell.empty)

/-- The Q-table `Q`: a finite mapping from state keys to value vectors,
modelled as an association list. -/
abbrev QTable := List (StateKey × List ℚ)

/-- Dictionary lookup `Q[state]`; `none` models the Python `KeyError`. -/
def qlookup : QTable → StateKey → Option (List ℚ)
  | [], _ => none
  | (k, v) :: rest, s => if k = s then some v else qlookup rest s

/-- Dictionary write `Q[state] = w` for a key already present: replaces the
value bound to `s` and nothing else. -/
def qset : QTable → StateKey → List ℚ → QTable
  | [], _, _ => []
  | (k, v) :: rest, s, w => if k = s then (k, w) :: rest else (k, v) :: qset rest s w

/-- The `initialize_q_table(board)`: if `board_to_tuple(board)` is not a key of
`Q`, bind it to `np.zeros(BOARD_SIZE * BOARD_SIZE)`. -/
def initialize_q_table (Q : QTable) (board : Board) : QTable :=
  match qlookup Q (board_to_tuple board) with
  | some _ => Q
  | none =>
      (board_to_tuple board, List.replicate (BOARD_SIZE * BOARD_SIZE) (0 : ℚ)) :: Q

/-- The `np.argmax(values)`: the first (lowest) index attaining the maximum of
the list; `0` on the empty list. -/
def argmax : List ℚ → Nat
  | [] => 0
  | [_] => 0
  | v :: w :: rest =>
      if v < (w :: rest).getD (argmax (w :: rest)) 0 then argmax (w :: rest) + 1
      else 0

/-- The `choose_action(state, exploration_rate)`.  The uniform draw is
abstracted by `explore` (whether it fell below the exploration rate), and
`random.randint(0, BOARD_SIZE*BOARD_SIZE - 1)` by `rand % 25`. -/
def choose_action (Q : QTable) (state : StateKey) (explore : Bool) (rand : Nat) :
    Option Nat :=
  if explore then some (rand % (BOARD_SIZE * BOARD_SIZE))
  else (qlookup Q state).map argmax

/-- The `update_q_table(state, action, reward, next_state)`: one-step tabular
Q-learning update of `Q[state][action]`; `none` models the `KeyError` when
either key is absent. -/
def update_q_table (Q : QTable) (state : StateKey) (action : Nat) (reward : ℚ)
    (next_state : StateKey) : Option QTable :=
  match qlookup Q next_state, qlookup Q state with
  | some nextVals, some stateVals =>
      let best_next_action := argmax nextVals
      let td_target := reward + DISCOUNT_FACTOR * nextVals.getD best_next_action 0
      let td_error := td_target - stateVals.getD action 0
      some (qset Q state
        (stateVals.set action (stateVals.getD action 0 + LEARNING_RATE * td_error)))
  | _, _ => none

/-- The mutable state of one training episode of `train_ai`. -/
structure TrainState where
  board : Board
  state : StateKey
  current_player : Cell
  Q : QTable
  done : Bool
deriving DecidableEq, Repr

/-- The `current_player = 'X' if current_player == 'O' else 'O'`. -/
def switch_player (c : Cell) : Cell :=
  if c = Cell.O then Cell.X else Cell.O

/-- One iteration of the `while not done` loop body of `train_ai`, with the
randomness of `choose_action` supplied by the oracle pair `(explore, rand)`.
If the selected cell is occupied nothing at all happens and the same state
is returned; otherwise the mark is applied, the reward computed, the next
state ensured, the Q-table updated and the mover switched. -/
def train_turn (ts : TrainState) (explore : Bool) (rand : Nat) : Option TrainState :=
  match choose_action ts.Q ts.state explore rand with
  | none => none
  | some action =>
    let row := action / BOARD_SIZE
    let col := action % BOARD_SIZE
    if getCell ts.board row col = Cell.empty then
      let board := setCell ts.board row col ts.current_player
      let reward : ℚ :=
        if is_winner board ts.current_player then
          (if ts.current_player = Cell.O then 1 else -1)
        else 0
      let done := is_winner board ts.current_player || is_draw board
      let next_state := board_to_tuple board
      let Q1 := initialize_q_table ts.Q board
      match update_q_table Q1 ts.state action reward next_state with
      | none => none
      | some Q2 =>
          some ⟨board, next_state, switch_player ts.current_player, Q2, done⟩
    else
      some ts

/-- The `while not done` loop of `train_ai`, driven by a finite list of
oracle pairs (one per executed iteration). -/
def run_turns : TrainState → List (Bool × Nat) → Option TrainState
  | ts, [] => some ts
  | ts, (e, r) :: rest =>
      if ts.done then some ts
      else
        match train_turn ts e r with
        | none => none
        | some ts' => run_turns ts' rest

/-- The start of one episode of `train_ai`: fresh empty board, its entry
ensured, state encoded, `'O'` to move, not done. -/
def start_episode (Q : QTable) : TrainState :=
  ⟨empty_board, board_to_tuple empty_board, Cell.O,
   initialize_q_table Q empty_board, false⟩

/-- One full episode of `train_ai`. -/
def run_episode (Q : QTable) (turns : List (Bool × Nat)) : Option TrainState :=
  run_turns (start_episode Q) turns

/-- The `train_ai(episodes)`: runs the given episodes (each with its own turn
oracle), multiplying the exploration rate by `EXPLORATION_DECAY` exactly
once after each episode; returns the final Q-table and exploration rate. -/
def train_ai : QTable → ℚ → List (List (Bool × Nat)) → Option (QTable × ℚ)
  | Q, rate, [] => some (Q, rate)
  | Q, rate, ep :: rest =>
      match run_episode Q ep with
      | none => none
      | some ts => train_ai ts.Q (rate * EXPLORATION_DECAY) rest

/-- The state of the interactive `TicTacToeGame` object: the board, the
text currently displayed on the grid of buttons (modelled as a second grid
of cells), the two symbols and the current player. -/
structure GameState where
  board : Board
  buttons : Board
  human_symbol : Cell
  ai_symbol : Cell
  current_player : Cell
deriving DecidableEq, Repr

/-- The messages surfaced through `messagebox.showinfo` by `end_game`. -/
inductive Message where
  | playerWins (symbol : Cell)
  | aiWins (symbol : Cell)
  | draw
deriving DecidableEq, Repr

mutual

/-- The `ai_move(self)`: looks up `Q[board_to_tuple(self.board)]` (a missing
key is the modelled `KeyError`, result `none`), takes the `np.argmax`
action, and if the targeted cell is empty applies the AI mark, otherwise
does nothing at all.  The fuel bounds the `ai_move`/`end_game`/`reset_game`
recursion; `none` on fuel exhaustion. -/
def ai_move_f : Nat → QTable → GameState → Option (GameState × List Message)
  | 0, _, _ => none
  | fuel + 1, Q, gs =>
    match qlookup Q (board_to_tuple gs.board) with
    | none => none
    | some vals =>
      let action := argmax vals
      let row := action / BOARD_SIZE
      let col := action % BOARD_SIZE
      if getCell gs.board row col = Cell.empty then
        let gs1 : GameState :=
          { gs with
            board := setCell gs.board row col gs.ai_symbol
            buttons := setCell gs.buttons row col gs.ai_symbol }
        if is_winner gs1.board gs.ai_symbol then
          end_game_f fuel Q gs1 (Message.aiWins gs.ai_symbol)
        else if is_draw gs1.board then
          end_game_f fuel Q gs1 Message.draw
        else
          some ({ gs1 with current_player := gs.human_symbol }, [])
      else
        some (gs, [])

/-- The `end_game(self, message)`: surfaces the message and resets the game. -/
def end_game_f : Nat → QTable → GameState → Message →
    Option (GameState × List Message)
  | 0, _, _, _ => none
  | fuel + 1, Q, gs, msg =>
    match reset_game_f fuel Q gs with
    | none => none
    | some (gs', msgs) => some (gs', msg :: msgs)

/-- The `reset_game(self)`: clears board and buttons, sets the human as the
current player, and re-triggers `ai_move` if that player is the AI. -/
def reset_game_f : Nat → QTable → GameState → Option (GameState × List Message)
  | 0, _, _ => none
  | fuel + 1, Q, gs =>
    let gs1 : GameState :=
      { gs with
        board := empty_board
        buttons := empty_board
        current_player := gs.human_symbol }
    if gs1.current_player = gs1.ai_symbol then ai_move_f fuel Q gs1
    else some (gs1, [])

end

/-- The `make_move(self, row, col)` (a button click): if the cell is empty and
it is the human's turn, applies the human mark and either ends the game or
hands the turn to the AI; otherwise nothing at all happens. -/
def make_move_f (fuel : Nat) (Q : QTable) (gs : GameState) (row col : Nat) :
    Option (GameState × List Message) :=
  if getCell gs.board row col = Cell.empty ∧ gs.current_player = gs.human_symbol then
    let gs1 : GameState :=
      { gs with
        board := setCell gs.board row col gs.human_symbol
        buttons := setCell gs.buttons row col gs.human_symbol }
    if is_winner gs1.board gs.human_symbol then
      end_game_f fuel Q gs1 (Message.playerWins gs.human_symbol)
    else if is_draw gs1.board then
      end_game_f fuel Q gs1 Message.draw
    else
      ai_move_f fuel Q { gs1 with current_player := gs.ai_symbol }
  else
    some (gs, [])

/-- Recursion depth amply sufficient for every call chain of the source
(`make_move` → `end_game` → `reset_game` → `ai_move` → ...). -/
def FUEL : Nat := 8

/-- The interactive `ai_move` entry point. -/
def ai_move (Q : QTable) (gs : GameState) : Option (GameState × List Message) :=
  ai_move_f FUEL Q gs

/-- The interactive `make_move` entry point (one click). -/
def make_move (Q : QTable) (gs : GameState) (row col : Nat) :
    Option (GameState × List Message) :=
  make_move_f FUEL Q gs row col

/-- A whole interactive session after setup: the sequence of clicks the
human performs, each routed to `make_move`. -/
def run_clicks : QTable → GameState → List (Nat × Nat) →
    Option (GameState × List Message)
  | _, gs, [] => some (gs, [])
  | Q, gs, (r, c) :: rest =>
      match make_move Q gs r c with
      | none => none
      | some (gs', msgs) =>
          match run_clicks Q gs' rest with
          | none => none
          | some (gs'', msgs') => some (gs'', msgs ++ msgs')

/-- A row with a mark `'O'` somewhere / a board with a mark `'O'` somewhere. -/
def rowHasO (row : List Cell) : Bool := row.any (· == Cell.O)

/-- The board holds at least one `'O'`. -/
def boardHasO (b : Board) : Bool := b.any rowHasO

/-- The key encodes at least one `'O'`. -/
def keyHasO (s : StateKey) : Bool := s.rows.any rowHasO

/-- The training state after an empty-cell turn that chose action `a`,
with `u` the rebound value vector of the pre-move state. -/
def applied_turn (ts : TrainState) (a : Nat) (u : List ℚ) : TrainState :=
  ⟨setCell ts.board (a / BOARD_SIZE) (a % BOARD_SIZE) ts.current_player,
   board_to_tuple (setCell ts.board (a / BOARD_SIZE) (a % BOARD_SIZE) ts.current_player),
   switch_player ts.current_player,
   qset (initialize_q_table ts.Q
      (setCell ts.board (a / BOARD_SIZE) (a % BOARD_SIZE) ts.current_player))
     ts.state u,
   is_winner (setCell ts.board (a / BOARD_SIZE) (a % BOARD_SIZE) ts.current_player)
       ts.current_player
     || is_draw (setCell ts.board (a / BOARD_SIZE) (a % BOARD_SIZE) ts.current_player)⟩

/-- Every binding of the table is a vector of `BOARD_SIZE * BOARD_SIZE` values. -/
def WFQ (Q : QTable) : Prop :=
  ∀ p ∈ Q, (p.2).length = BOARD_SIZE * BOARD_SIZE

/-- Every key of the table is the empty board's key or encodes an `'O'`
(true of every table built by training, where `'O'` always moves first). -/
def KeysO (Q : QTable) : Prop :=
  ∀ p ∈ Q, p.1 = board_to_tuple empty_board ∨ keyHasO p.1 = true

/-- A well-formed `BOARD_SIZE` by `BOARD_SIZE` board. -/
def WFBoard (b : Board) : Prop :=
  b.length = BOARD_SIZE ∧ ∀ row ∈ b, row.length = BOARD_SIZE

/-- The invariant maintained by every turn of a training episode. -/
structure Inv (ts : TrainState) : Prop where
  wfBoard : WFBoard ts.board
  wfQ : WFQ ts.Q
  stateInQ : (qlookup ts.Q ts.state).isSome = true
  keysO : KeysO ts.Q
  boardO : ts.board = empty_board ∨ boardHasO ts.board = true
  playerO : ts.current_player = Cell.O ∨ boardHasO ts.board = true

/-! ### Concrete boards, tables and game states used by the claims -/

/-- The full board all of whose cells hold `'X'`. -/
def fullX : Board := List.replicate BOARD_SIZE (List.replicate BOARD_SIZE Cell.X)

/-- The board with a single `'X'` at `(0, 0)`: the human's first move when
playing `'X'` and starting. -/
def singleX : Board := setCell empty_board 0 0 Cell.X

/-- The board with a single `'O'` at `(0, 0)`: the first training move of
an episode choosing action `0`. -/
def boardO00 : Board := setCell empty_board 0 0 Cell.O

/-- The zero value vector of a fresh table entry. -/
def zeros25 : List ℚ := List.replicate (BOARD_SIZE * BOARD_SIZE) 0

/-- The 25-entry vector `[0, 5, 5, 0, ..., 0]` of the tie-break example. -/
def exampleEntry : List ℚ := 0 :: 5 :: 5 :: List.replicate 22 0

/-- A state key used by the Learner example (one `'O'` placed). -/
def keyA : StateKey := board_to_tuple boardO00

/-- A second, distinct state key used by the Learner example. -/
def keyB : StateKey := board_to_tuple (setCell empty_board 1 1 Cell.O)

/-- The Learner example table: `value(keyA, ·) = 0` everywhere, and
`value(keyB, ·)` zero except `0.8` at index `3` (so its maximum is `0.8`). -/
def exQ : QTable := [(keyA, zeros25), (keyB, zeros25.set 3 (8 / 10))]

/-- The training state after the first turn of the first episode when the
oracle explores action `0`: `'O'` at `(0, 0)`, `'X'` to move, and table
entries for the empty board and `boardO00` (all values zero). -/
def cexTS : TrainState :=
  ⟨boardO00, board_to_tuple boardO00, Cell.X,
   [(board_to_tuple boardO00, zeros25), (board_to_tuple empty_board, zeros25)], false⟩

/-- The fresh human-vs-AI game: human plays `'X'` and starts. -/
def fresh_game : GameState := ⟨empty_board, empty_board, Cell.X, Cell.O, Cell.X⟩

/-- The game state handed to `ai_move` right after the first human click
at `(0, 0)` of `fresh_game`. -/
def after_first_click : GameState := ⟨singleX, singleX, Cell.X, Cell.O, Cell.O⟩

/-- A table whose only entry is the single-`'X'` board, with all-zero
values: its greedy action `0` targets the occupied `(0, 0)`. -/
def stuckQ : QTable := [(board_to_tuple singleX, zeros25)]

/-- The game state in which the interactive AI is stuck: board `singleX`,
AI (`'O'`) to move, greedy action occupied. -/
def stuck_game : GameState := ⟨singleX, singleX, Cell.X, Cell.O, Cell.O⟩

/-! ### Basic list helpers -/

/-- Reading back an in-range overwritten position. -/
theorem getD_set_eq {α : Type} :
    ∀ (l : List α) (i : Nat) (a d : α), i < l.length → (l.set i a).getD i d = a := by
  intro l
  induction l with
  | nil => intro i a d h; simp at h
  | cons x xs ih =>
    intro i a d h
    cases i with
    | zero => simp
    | succ k =>
      simp only [List.set_cons_succ, List.getD_cons_succ]
      exact ih k a d (by simpa using h)

/-- Reading an untouched position after an overwrite. -/
theorem getD_set_ne {α : Type} :
    ∀ (l : List α) (i k : Nat) (a d : α), i ≠ k → (l.set i a).getD k d = l.getD k d := by
  intro l
  induction l with
  | nil => intro i k a d _; simp
  | cons x xs ih =>
    intro i k a d h
    cases i with
    | zero =>
      cases k with
      | zero => exact absurd rfl h
      | succ m => simp
    | succ n =>
      cases k with
      | zero => simp
      | succ m =>
        simp only [List.set_cons_succ, List.getD_cons_succ]
        exact ih n m a d (fun he => h (by rw [he]))

/-! ### Properties of `argmax` (`np.argmax`) -/

/-- The argmax index is in range for a nonempty list. -/
theorem argmax_lt_length : ∀ (l : List ℚ), l ≠ [] → argmax l < l.length := by
  intro l
  induction l with
  | nil => intro h; exact absurd rfl h
  | cons v t ih =>
    intro _
    cases t with
    | nil => simp [argmax]
    | cons w rest =>
      simp only [argmax]
      split
      · have h := ih (by simp)
        simpa [Nat.succ_lt_succ_iff] using h
      · simp

/-- The value at the argmax index is maximal. -/
theorem argmax_le : ∀ (l : List ℚ) (i : Nat), i < l.length →
    l.getD i 0 ≤ l.getD (argmax l) 0 := by
  intro l
  induction l with
  | nil => intro i h; simp at h
  | cons v t ih =>
    intro i hi
    cases t with
    | nil =>
      cases i with
      | zero => simp [argmax]
      | succ k => simp at hi
    | cons w rest =>
      simp only [argmax]
      split
      case isTrue hlt =>
        rw [List.getD_cons_succ]
        cases i with
        | zero => simpa using le_of_lt hlt
        | succ k =>
          rw [List.getD_cons_succ]
          exact ih k (by simpa using hi)
      case isFalse hge =>
        rw [List.getD_cons_zero]
        cases i with
        | zero => simp
        | succ k =>
          rw [List.getD_cons_succ]
          exact le_trans (ih k (by simpa using hi)) (le_of_not_lt hge)

/-- Among indices attaining the maximum, argmax is the lowest one. -/
theorem argmax_first : ∀ (l : List ℚ) (i : Nat), i < l.length →
    l.getD (argmax l) 0 ≤ l.getD i 0 → argmax l ≤ i := by
  intro l
  induction l with
  | nil => intro i h; simp at h
  | cons v t ih =>
    intro i hi hle
    cases t with
    | nil => simp [argmax]
    | cons w rest =>
      simp only [argmax] at hle ⊢
      split
      case isTrue hlt =>
        rw [if_pos hlt, List.getD_cons_succ] at hle
        cases i with
        | zero =>
          rw [List.getD_cons_zero] at hle
          exact absurd (lt_of_lt_of_le hlt hle) (lt_irrefl _)
        | succ k =>
          rw [List.getD_cons_succ] at hle
          exact Nat.succ_le_succ (ih k (by simpa using hi) hle)
      case isFalse hge => exact Nat.zero_le _

/-! ### Properties of the Q-table operations -/

/-- A successful lookup returns a binding of the table. -/
theorem qlookup_mem : ∀ (Q : QTable) (s : StateKey) (v : List ℚ),
    qlookup Q s = some v → (s, v) ∈ Q := by
  intro Q
  induction Q with
  | nil => intro s v h; simp [qlookup] at h
  | cons p rest ih =>
    intro s v h
    obtain ⟨k, w⟩ := p
    simp only [qlookup] at h
    split at h
    case isTrue heq =>
      injection h with h'
      subst heq
      subst h'
      exact List.mem_cons_self _ _
    case isFalse hne =>
      exact List.mem_cons_of_mem _ (ih s v h)

/-- After `initialize_q_table`, the board's key is present. -/
theorem qlookup_init_self (Q : QTable) (b : Board) :
    (qlookup (initialize_q_table Q b) (board_to_tuple b)).isSome = true := by
  unfold initialize_q_table
  cases hq : qlookup Q (board_to_tuple b) with
  | some v => simp [hq]
  | none => simp [hq, qlookup]

/-- The `initialize_q_table` never changes an existing binding. -/
theorem qlookup_init_some (Q : QTable) (b : Board) (s : StateKey) (v : List ℚ)
    (h : qlookup Q s = some v) : qlookup (initialize_q_table Q b) s = some v := by
  unfold initialize_q_table
  cases hq : qlookup Q (board_to_tuple b) with
  | some w => simpa [hq] using h
  | none =>
    have hne : ¬ (board_to_tuple b = s) := by
      intro he
      rw [he, h] at hq
      cases hq
    simp [hq, qlookup, hne, h]

/-- A binding of the initialized table is an old binding or the fresh
zero vector for the board's key. -/
theorem mem_initialize (Q : QTable) (b : Board) (p : StateKey × List ℚ)
    (h : p ∈ initialize_q_table Q b) :
    p ∈ Q ∨ p = (board_to_tuple b, List.replicate (BOARD_SIZE * BOARD_SIZE) (0 : ℚ)) := by
  unfold initialize_q_table at h
  cases hq : qlookup Q (board_to_tuple b) with
  | some w => rw [hq] at h; exact Or.inl h
  | none =>
    rw [hq] at h
    rcases List.mem_cons.mp h with h1 | h2
    · exact Or.inr h1
    · exact Or.inl h2

/-- The `qset` rebinds the written key (when it was present). -/
theorem qlookup_qset_self : ∀ (Q : QTable) (s : StateKey) (w v : List ℚ),
    qlookup Q s = some v → qlookup (qset Q s w) s = some w := by
  intro Q
  induction Q with
  | nil => intro s w v h; simp [qlookup] at h
  | cons p rest ih =>
    intro s w v h
    obtain ⟨k, u⟩ := p
    by_cases hk : k = s
    · subst hk
      simp [qset, qlookup]
    · simp only [qlookup, if_neg hk] at h
      simp only [qset, if_neg hk, qlookup, if_neg hk]
      exact ih s w v h

/-- The `qset` leaves every other key's binding unchanged. -/
theorem qlookup_qset_ne : ∀ (Q : QTable) (s t : StateKey) (w : List ℚ),
    t ≠ s → qlookup (qset Q s w) t = qlookup Q t := by
  intro Q
  induction Q with
  | nil => intro s t w _; simp [qset]
  | cons p rest ih =>
    intro s t w hne
    obtain ⟨k, u⟩ := p
    by_cases hk : k = s
    · subst hk
      have hkt : ¬ (k = t) := fun he => hne (he ▸ rfl)
      simp [qset, qlookup, hkt]
    · by_cases hkt : k = t
      · subst hkt
        simp [qset, hk, qlookup]
      · simp only [qset, if_neg hk, qlookup, if_neg hkt]
        exact ih s t w hne

/-- A binding of `qset Q s w` is an old binding or `(s, w)`. -/
theorem mem_qset : ∀ (Q : QTable) (s : StateKey) (w : List ℚ) (p : StateKey × List ℚ),
    p ∈ qset Q s w → p ∈ Q ∨ p = (s, w) := by
  intro Q
  induction Q with
  | nil => intro s w p h; simp [qset] at h
  | cons q rest ih =>
    intro s w p h
    obtain ⟨k, u⟩ := q
    by_cases hk : k = s
    · subst hk
      simp only [qset, if_pos rfl] at h
      rcases List.mem_cons.mp h with h1 | h2
      · exact Or.inr h1
      · exact Or.inl (List.mem_cons_of_mem _ h2)
    · simp only [qset, if_neg hk] at h
      rcases List.mem_cons.mp h with h1 | h2
      · exact Or.inl (h1 ▸ List.mem_cons_self _ _)
      · rcases ih s w p h2 with h3 | h4
        · exact Or.inl (List.mem_cons_of_mem _ h3)
        · exact Or.inr h4

/-- The fully explicit result of `update_q_table` when both keys are bound. -/
theorem update_q_table_eq (Q : QTable) (s s' : StateKey) (a : Nat) (r : ℚ)
    (v w : List ℚ) (hs : qlookup Q s = some v) (hs' : qlookup Q s' = some w) :
    update_q_table Q s a r s' =
      some (qset Q s (v.set a
        (v.getD a 0 +
          LEARNING_RATE * ((r + DISCOUNT_FACTOR * w.getD (argmax w) 0) - v.getD a 0)))) := by
  unfold update_q_table
  rw [hs, hs']

/-! ### Board helpers -/

/-- The state key is the rows of the board verbatim. -/
theorem board_to_tuple_eq (b : Board) : board_to_tuple b = ⟨b⟩ := by
  unfold board_to_tuple
  congr 1
  have h : ∀ row : List Cell, row.map (fun cell => cell) = row := fun row => List.map_id' row
  calc b.map (fun row => row.map fun cell => cell)
      = b.map (fun row => row) := by
        apply List.map_congr_left
        intro row _
        exact h row
    _ = b := List.map_id' b

/-- Reading the freshly written cell. -/
theorem getCell_setCell_self (b : Board) (i j : Nat) (c : Cell)
    (hi : i < b.length) (hj : j < (b.getD i []).length) :
    getCell (setCell b i j c) i j = c := by
  unfold getCell setCell
  rw [getD_set_eq b i _ [] hi]
  exact getD_set_eq _ j c Cell.empty hj

/-- The `setCell` preserves the number of rows. -/
theorem setCell_length (b : Board) (i j : Nat) (c : Cell) :
    (setCell b i j c).length = b.length := by
  unfold setCell
  exact List.length_set b i _

/-- Every row of `setCell b i j c` is a row of `b` or an overwrite of one;
either way its length is that of a row of `b` at the same width. -/
theorem setCell_row_length (b : Board) (i j : Nat) (c : Cell) (row : List Cell)
    (h : row ∈ setCell b i j c) :
    row ∈ b ∨ ∃ row' ∈ b, row.length = row'.length := by
  unfold setCell at h
  by_cases hi : i < b.length
  · rcases List.mem_or_eq_of_mem_set h with h1 | h2
    · exact Or.inl h1
    · subst h2
      refine Or.inr ⟨b.getD i [], ?_, List.length_set _ _ _⟩
      rw [List.getD_eq_getElem b [] hi]
      exact List.getElem_mem hi
  · rw [List.set_eq_of_length_le (le_of_not_lt hi)] at h
    exact Or.inl h

/-- The `keyHasO` of an encoded board is `boardHasO` of the board. -/
theorem keyHasO_board_to_tuple (b : Board) : keyHasO (board_to_tuple b) = boardHasO b := by
  rw [board_to_tuple_eq]
  rfl

/-- A row keeps its `'O'` when an empty cell of it is overwritten. -/
theorem rowHasO_set : ∀ (row : List Cell) (j : Nat) (c : Cell),
    row.getD j Cell.empty = Cell.empty → rowHasO row = true →
    rowHasO (row.set j c) = true := by
  intro row
  induction row with
  | nil => intro j c _ h; simp [rowHasO] at h
  | cons x xs ih =>
    intro j c hj h
    cases j with
    | zero =>
      simp only [List.getD_cons_zero] at hj
      subst hj
      simp only [rowHasO, List.any_cons] at h
      simp only [List.set_cons_zero, rowHasO, List.any_cons]
      rcases Bool.or_eq_true_iff.mp h with h1 | h2
      · exact absurd h1 (by simp)
      · exact Bool.or_eq_true_iff.mpr (Or.inr h2)
    | succ k =>
      simp only [List.getD_cons_succ] at hj
      simp only [rowHasO, List.any_cons] at h
      simp only [List.set_cons_succ, rowHasO, List.any_cons]
      rcases Bool.or_eq_true_iff.mp h with h1 | h2
      · exact Bool.or_eq_true_iff.mpr (Or.inl h1)
      · exact Bool.or_eq_true_iff.mpr (Or.inr (ih k c hj h2))

/-- A board keeps its `'O'` when an empty cell is overwritten. -/
theorem boardHasO_setCell : ∀ (b : Board) (i j : Nat) (c : Cell),
    getCell b i j = Cell.empty → boardHasO b = true →
    boardHasO (setCell b i j c) = true := by
  intro b
  induction b with
  | nil => intro i j c _ h; simp [boardHasO] at h
  | cons row rest ih =>
    intro i j c hcell h
    cases i with
    | zero =>
      simp only [boardHasO, List.any_cons] at h
      have hset : setCell (row :: rest) 0 j c = row.set j c :: rest := rfl
      rw [hset]
      simp only [boardHasO, List.any_cons]
      rcases Bool.or_eq_true_iff.mp h with h1 | h2
      · have hj : row.getD j Cell.empty = Cell.empty := hcell
        exact Bool.or_eq_true_iff.mpr (Or.inl (rowHasO_set row j c hj h1))
      · exact Bool.or_eq_true_iff.mpr (Or.inr h2)
    | succ k =>
      simp only [boardHasO, List.any_cons] at h
      have hset : setCell (row :: rest) (k + 1) j c = row :: setCell rest k j c := rfl
      rw [hset]
      simp only [boardHasO, List.any_cons]
      rcases Bool.or_eq_true_iff.mp h with h1 | h2
      · exact Bool.or_eq_true_iff.mpr (Or.inl h1)
      · have hc : getCell rest k j = Cell.empty := hcell
        exact Bool.or_eq_true_iff.mpr (Or.inr (ih k j c hc h2))

/-- A row holding `'O'` at an in-range position satisfies `rowHasO`. -/
theorem rowHasO_of_getD : ∀ (row : List Cell) (j : Nat),
    j < row.length → row.getD j Cell.empty = Cell.O → rowHasO row = true := by
  intro row
  induction row with
  | nil => intro j h _; simp at h
  | cons x xs ih =>
    intro j hj h
    cases j with
    | zero =>
      simp only [List.getD_cons_zero] at h
      subst h
      simp [rowHasO]
    | succ k =>
      simp only [List.getD_cons_succ] at h
      simp only [rowHasO, List.any_cons]
      exact Bool.or_eq_true_iff.mpr
        (Or.inr (ih k (by simpa using hj) h))

/-- A board holding `'O'` at an in-range cell satisfies `boardHasO`. -/
theorem boardHasO_of_getCell : ∀ (b : Board) (i j : Nat),
    i < b.length → j < (b.getD i []).length → getCell b i j = Cell.O →
    boardHasO b = true := by
  intro b
  induction b with
  | nil => intro i j h _ _; simp at h
  | cons row rest ih =>
    intro i j hi hj h
    cases i with
    | zero =>
      simp only [boardHasO, List.any_cons]
      have h0 : row.getD j Cell.empty = Cell.O := h
      have hj0 : j < row.length := hj
      exact Bool.or_eq_true_iff.mpr (Or.inl (rowHasO_of_getD row j hj0 h0))
    | succ k =>
      simp only [boardHasO, List.any_cons]
      have hk : getCell rest k j = Cell.O := h
      exact Bool.or_eq_true_iff.mpr
        (Or.inr (ih k j (by simpa using hi) hj hk))

/-- After an in-range placement of `'O'`, the board has an `'O'`. -/
theorem boardHasO_set_O (b : Board) (i j : Nat)
    (hi : i < b.length) (hj : j < (b.getD i []).length) :
    boardHasO (setCell b i j Cell.O) = true := by
  have hlen : i < (setCell b i j Cell.O).length := by rw [setCell_length]; exact hi
  have hrow : (setCell b i j Cell.O).getD i [] = (b.getD i []).set j Cell.O := by
    unfold setCell
    exact getD_set_eq b i _ [] hi
  have hj' : j < ((setCell b i j Cell.O).getD i []).length := by
    rw [hrow, List.length_set]
    exact hj
  exact boardHasO_of_getCell _ i j hlen hj'
    (getCell_setCell_self b i j Cell.O hi hj)

/-! ### Characterization of one training turn -/

/-- The `choose_action` when the state's entry is present. -/
theorem choose_action_some (Q : QTable) (s : StateKey) (e : Bool) (r : Nat)
    (v : List ℚ) (h : qlookup Q s = some v) :
    choose_action Q s e r =
      some (if e then r % (BOARD_SIZE * BOARD_SIZE) else argmax v) := by
  unfold choose_action
  cases e with
  | true => simp
  | false => simp [h]

/-- A selection of an occupied cell leaves the training state untouched. -/
theorem train_turn_occupied (ts : TrainState) (e : Bool) (r : Nat) (a : Nat)
    (hca : choose_action ts.Q ts.state e r = some a)
    (hocc : ¬ (getCell ts.board (a / BOARD_SIZE) (a % BOARD_SIZE) = Cell.empty)) :
    train_turn ts e r = some ts := by
  simp only [train_turn, hca]
  rw [if_neg hocc]

/-- A selection of an empty cell: the mark is applied, the state advances,
the mover switches, and the Q-table is rebound at the old state with a
vector of the old length. -/
theorem train_turn_empty_spec (ts : TrainState) (e : Bool) (r : Nat) (a : Nat)
    (v : List ℚ)
    (hca : choose_action ts.Q ts.state e r = some a)
    (hv : qlookup ts.Q ts.state = some v)
    (hemp : getCell ts.board (a / BOARD_SIZE) (a % BOARD_SIZE) = Cell.empty) :
    ∃ u, train_turn ts e r = some (applied_turn ts a u) ∧ u.length = v.length := by
  obtain ⟨w, hw⟩ : ∃ w,
      qlookup (initialize_q_table ts.Q
          (setCell ts.board (a / BOARD_SIZE) (a % BOARD_SIZE) ts.current_player))
        (board_to_tuple
          (setCell ts.board (a / BOARD_SIZE) (a % BOARD_SIZE) ts.current_player)) =
        some w :=
    Option.isSome_iff_exists.mp (qlookup_init_self _ _)
  have hv1 : qlookup (initialize_q_table ts.Q
      (setCell ts.board (a / BOARD_SIZE) (a % BOARD_SIZE) ts.current_player))
      ts.state = some v :=
    qlookup_init_some _ _ _ _ hv
  have hupd := update_q_table_eq
    (initialize_q_table ts.Q
      (setCell ts.board (a / BOARD_SIZE) (a % BOARD_SIZE) ts.current_player))
    ts.state
    (board_to_tuple (setCell ts.board (a / BOARD_SIZE) (a % BOARD_SIZE) ts.current_player))
    a
    (if is_winner (setCell ts.board (a / BOARD_SIZE) (a % BOARD_SIZE) ts.current_player)
        ts.current_player then
      (if ts.current_player = Cell.O then 1 else -1)
    else 0)
    v w hv1 hw
  refine ⟨v.set a
      (v.getD a 0 + LEARNING_RATE *
        (((if is_winner (setCell ts.board (a / BOARD_SIZE) (a % BOARD_SIZE)
              ts.current_player) ts.current_player then
            (if ts.current_player = Cell.O then (1 : ℚ) else -1)
          else 0) + DISCOUNT_FACTOR * w.getD (argmax w) 0) - v.getD a 0)),
    ?_, List.length_set _ _ _⟩
  simp only [train_turn, hca]
  rw [if_pos hemp, hupd]
  rfl

/-! ### Training invariants -/

/-- A training turn whose state has a table entry always succeeds and
restores that property. -/
theorem train_turn_total (ts : TrainState) (e : Bool) (r : Nat)
    (h : (qlookup ts.Q ts.state).isSome = true) :
    ∃ ts', train_turn ts e r = some ts' ∧ (qlookup ts'.Q ts'.state).isSome = true := by
  obtain ⟨v, hv⟩ := Option.isSome_iff_exists.mp h
  obtain ⟨a, hca⟩ : ∃ a, choose_action ts.Q ts.state e r = some a :=
    ⟨_, choose_action_some ts.Q ts.state e r v hv⟩
  by_cases hemp : getCell ts.board (a / BOARD_SIZE) (a % BOARD_SIZE) = Cell.empty
  · obtain ⟨u, hturn, _⟩ := train_turn_empty_spec ts e r a v hca hv hemp
    refine ⟨_, hturn, ?_⟩
    show (qlookup
      (qset (initialize_q_table ts.Q
        (setCell ts.board (a / BOARD_SIZE) (a % BOARD_SIZE) ts.current_player))
        ts.state u)
      (board_to_tuple
        (setCell ts.board (a / BOARD_SIZE) (a % BOARD_SIZE) ts.current_player))).isSome =
      true
    have hv1 : qlookup (initialize_q_table ts.Q
        (setCell ts.board (a / BOARD_SIZE) (a % BOARD_SIZE) ts.current_player))
        ts.state = some v := qlookup_init_some _ _ _ _ hv
    by_cases hk : board_to_tuple
        (setCell ts.board (a / BOARD_SIZE) (a % BOARD_SIZE) ts.current_player) = ts.state
    · rw [hk, qlookup_qset_self _ _ _ _ hv1]
      rfl
    · rw [qlookup_qset_ne _ _ _ _ hk]
      exact qlookup_init_self _ _
  · exact ⟨ts, train_turn_occupied ts e r a hca hemp, h⟩

/-- Every partial run of the episode loop succeeds when the state has a
table entry. -/
theorem run_turns_total : ∀ (l : List (Bool × Nat)) (ts : TrainState),
    (qlookup ts.Q ts.state).isSome = true →
    ∃ ts', run_turns ts l = some ts' ∧ (qlookup ts'.Q ts'.state).isSome = true := by
  intro l
  induction l with
  | nil => intro ts h; exact ⟨ts, rfl, h⟩
  | cons p rest ih =>
    intro ts h
    obtain ⟨e, r⟩ := p
    by_cases hd : ts.done = true
    · exact ⟨ts, by simp [run_turns, hd], h⟩
    · obtain ⟨ts', hts', h'⟩ := train_turn_total ts e r h
      obtain ⟨ts'', hts'', h''⟩ := ih ts' h'
      exact ⟨ts'', by simp [run_turns, hd, hts', hts''], h''⟩

/-- Episodes always run to completion: `train_ai` performs no lookup on a
missing key, starting from any table. -/
theorem run_episode_total (Q : QTable) (l : List (Bool × Nat)) :
    ∃ ts', run_episode Q l = some ts' ∧ (qlookup ts'.Q ts'.state).isSome = true :=
  run_turns_total l (start_episode Q) (qlookup_init_self Q empty_board)

/-- Whole-training totality: no `KeyError` is reachable in training. -/
theorem train_ai_total : ∀ (eps : List (List (Bool × Nat))) (Q : QTable) (rate : ℚ),
    (train_ai Q rate eps).isSome = true := by
  intro eps
  induction eps with
  | nil => intro Q rate; rfl
  | cons ep rest ih =>
    intro Q rate
    obtain ⟨ts', hts', _⟩ := run_episode_total Q ep
    simp [train_ai, hts', ih]

/-- A training turn preserves the full invariant. -/
theorem Inv_train_turn (ts : TrainState) (e : Bool) (r : Nat) (inv : Inv ts) :
    ∃ ts', train_turn ts e r = some ts' ∧ Inv ts' := by
  obtain ⟨v, hv⟩ := Option.isSome_iff_exists.mp inv.stateInQ
  have hvlen : v.length = BOARD_SIZE * BOARD_SIZE := inv.wfQ _ (qlookup_mem _ _ _ hv)
  have hca := choose_action_some ts.Q ts.state e r v hv
  have ha : (if e then r % (BOARD_SIZE * BOARD_SIZE) else argmax v) <
      BOARD_SIZE * BOARD_SIZE := by
    cases e with
    | true => simpa using Nat.mod_lt r (by norm_num [BOARD_SIZE])
    | false =>
      have hne : v ≠ [] := by
        intro h0
        rw [h0] at hvlen
        simp [BOARD_SIZE] at hvlen
      simpa [hvlen] using argmax_lt_length v hne
  revert hca ha
  set a := if e then r % (BOARD_SIZE * BOARD_SIZE) else argmax v
  intro hca ha
  have hrow : a / BOARD_SIZE < BOARD_SIZE := by
    simp only [BOARD_SIZE] at ha ⊢
    omega
  have hcol : a % BOARD_SIZE < BOARD_SIZE := by
    simp only [BOARD_SIZE] at ha ⊢
    omega
  by_cases hemp : getCell ts.board (a / BOARD_SIZE) (a % BOARD_SIZE) = Cell.empty
  · obtain ⟨u, hturn, hulen⟩ := train_turn_empty_spec ts e r a v hca hv hemp
    refine ⟨_, hturn, ?_⟩
    have hrow' : a / BOARD_SIZE < ts.board.length := by
      rw [inv.wfBoard.1]
      exact hrow
    have hcol' : a % BOARD_SIZE < (ts.board.getD (a / BOARD_SIZE) []).length := by
      have hmem : ts.board.getD (a / BOARD_SIZE) [] ∈ ts.board := by
        rw [List.getD_eq_getElem ts.board [] hrow']
        exact List.getElem_mem hrow'
      rw [inv.wfBoard.2 _ hmem]
      exact hcol
    have hB' : boardHasO
        (setCell ts.board (a / BOARD_SIZE) (a % BOARD_SIZE) ts.current_player) = true := by
      rcases inv.playerO with hO | hHas
      · rw [hO]
        exact boardHasO_set_O ts.board _ _ hrow' hcol'
      · exact boardHasO_setCell ts.board _ _ _ hemp hHas
    have hv1 : qlookup (initialize_q_table ts.Q
        (setCell ts.board (a / BOARD_SIZE) (a % BOARD_SIZE) ts.current_player))
        ts.state = some v := qlookup_init_some _ _ _ _ hv
    have hkeyState : ts.state = board_to_tuple empty_board ∨ keyHasO ts.state = true :=
      inv.keysO _ (qlookup_mem _ _ _ hv)
    constructor
    · -- wfBoard
      constructor
      · show (setCell ts.board (a / BOARD_SIZE) (a % BOARD_SIZE)
            ts.current_player).length = BOARD_SIZE
        rw [setCell_length]
        exact inv.wfBoard.1
      · intro row hrowmem
        rcases setCell_row_length _ _ _ _ _ hrowmem with h1 | ⟨row', hrow'', hlen⟩
        · exact inv.wfBoard.2 _ h1
        · rw [hlen]
          exact inv.wfBoard.2 _ hrow''
    · -- wfQ
      intro p hp
      rcases mem_qset _ _ _ _ hp with hp1 | hp2
      · rcases mem_initialize _ _ _ hp1 with hp3 | hp4
        · exact inv.wfQ _ hp3
        · rw [hp4]
          exact List.length_replicate _ _
      · rw [hp2]
        show u.length = BOARD_SIZE * BOARD_SIZE
        rw [hulen]
        exact hvlen
    · -- stateInQ
      simp only [applied_turn]
      by_cases hk : board_to_tuple
          (setCell ts.board (a / BOARD_SIZE) (a % BOARD_SIZE) ts.current_player) = ts.state
      · rw [hk, qlookup_qset_self _ _ _ _ hv1]
        rfl
      · rw [qlookup_qset_ne _ _ _ _ hk]
        exact qlookup_init_self _ _
    · -- keysO
      intro p hp
      rcases mem_qset _ _ _ _ hp with hp1 | hp2
      · rcases mem_initialize _ _ _ hp1 with hp3 | hp4
        · exact inv.keysO _ hp3
        · rw [hp4]
          right
          rw [keyHasO_board_to_tuple]
          exact hB'
      · rw [hp2]
        exact hkeyState
    · -- boardO
      right
      exact hB'
    · -- playerO
      right
      exact hB'
  · exact ⟨ts, train_turn_occupied ts e r a hca hemp, inv⟩

/-- The episode loop preserves the invariant. -/
theorem Inv_run_turns : ∀ (l : List (Bool × Nat)) (ts : TrainState), Inv ts →
    ∃ ts', run_turns ts l = some ts' ∧ Inv ts' := by
  intro l
  induction l with
  | nil => intro ts h; exact ⟨ts, rfl, h⟩
  | cons p rest ih =>
    intro ts h
    obtain ⟨e, r⟩ := p
    by_cases hd : ts.done = true
    · exact ⟨ts, by simp [run_turns, hd], h⟩
    · obtain ⟨ts', hts', h'⟩ := Inv_train_turn ts e r h
      obtain ⟨ts'', hts'', h''⟩ := ih ts' h'
      exact ⟨ts'', by simp [run_turns, hd, hts', hts''], h''⟩

/-- The invariant holds at the start of every episode. -/
theorem Inv_start (Q : QTable) (hw : WFQ Q) (hk : KeysO Q) : Inv (start_episode Q) := by
  constructor
  · constructor
    · rfl
    · intro row hrow
      have : row = List.replicate BOARD_SIZE Cell.empty :=
        List.eq_of_mem_replicate hrow
      rw [this]
      exact List.length_replicate _ _
  · intro p hp
    rcases mem_initialize _ _ _ hp with h1 | h2
    · exact hw _ h1
    · rw [h2]
      exact List.length_replicate _ _
  · exact qlookup_init_self Q empty_board
  · intro p hp
    rcases mem_initialize _ _ _ hp with h1 | h2
    · exact hk _ h1
    · rw [h2]
      exact Or.inl rfl
  · exact Or.inl rfl
  · exact Or.inl rfl

/-- The `train_ai` from a table with training-shaped keys ends with a table
with training-shaped keys (and well-formed value vectors). -/
theorem Inv_train_ai : ∀ (eps : List (List (Bool × Nat))) (Q : QTable) (rate : ℚ),
    WFQ Q → KeysO Q →
    ∃ Q' rate', train_ai Q rate eps = some (Q', rate') ∧ WFQ Q' ∧ KeysO Q' := by
  intro eps
  induction eps with
  | nil => intro Q rate hw hk; exact ⟨Q, rate, rfl, hw, hk⟩
  | cons ep rest ih =>
    intro Q rate hw hk
    obtain ⟨ts', hts', hinv⟩ := Inv_run_turns ep (start_episode Q) (Inv_start Q hw hk)
    obtain ⟨Q', rate', hrec, hw', hk'⟩ := ih ts'.Q (rate * EXPLORATION_DECAY)
      hinv.wfQ hinv.keysO
    refine ⟨Q', rate', ?_, hw', hk'⟩
    show (match run_episode Q ep with
      | none => none
      | some ts => train_ai ts.Q (rate * EXPLORATION_DECAY) rest) = some (Q', rate')
    rw [show run_episode Q ep = some ts' from hts']
    exact hrec

/-- The exploration rate after training is the initial rate times the
decay raised to the number of episodes. -/
theorem train_ai_rate : ∀ (eps : List (List (Bool × Nat))) (Q : QTable) (rate : ℚ)
    (Q' : QTable) (rate' : ℚ), train_ai Q rate eps = some (Q', rate') →
    rate' = rate * EXPLORATION_DECAY ^ eps.length := by
  intro eps
  induction eps with
  | nil =>
    intro Q rate Q' rate' h
    simp only [train_ai, Option.some.injEq, Prod.mk.injEq] at h
    rw [← h.2]
    simp
  | cons ep rest ih =>
    intro Q rate Q' rate' h
    simp only [train_ai] at h
    cases hts : run_episode Q ep with
    | none => rw [hts] at h; cases h
    | some ts =>
      rw [hts] at h
      rw [ih ts.Q (rate * EXPLORATION_DECAY) Q' rate' h, List.length_cons, pow_succ]
      ring

/-! ### Branch equations of the interactive game -/

/-- The `ai_move` on a state whose key is missing from the table: `KeyError`. -/
theorem ai_move_missing (fuel : Nat) (Q : QTable) (gs : GameState)
    (hq : qlookup Q (board_to_tuple gs.board) = none) :
    ai_move_f (fuel + 1) Q gs = none := by
  simp [ai_move_f, hq]

/-- The `ai_move` whose greedy action targets an occupied cell changes nothing. -/
theorem ai_move_occ (fuel : Nat) (Q : QTable) (gs : GameState) (vals : List ℚ)
    (hq : qlookup Q (board_to_tuple gs.board) = some vals)
    (hocc : ¬ (getCell gs.board (argmax vals / BOARD_SIZE) (argmax vals % BOARD_SIZE) =
      Cell.empty)) :
    ai_move_f (fuel + 1) Q gs = some (gs, []) := by
  simp only [ai_move_f, hq]
  rw [if_neg hocc]

/-- The `ai_move` placing a non-terminal mark: board and buttons get the AI
mark at the greedy cell and the turn passes to the human. -/
theorem ai_move_place (fuel : Nat) (Q : QTable) (gs : GameState) (vals : List ℚ)
    (hq : qlookup Q (board_to_tuple gs.board) = some vals)
    (hemp : getCell gs.board (argmax vals / BOARD_SIZE) (argmax vals % BOARD_SIZE) =
      Cell.empty)
    (hwin : is_winner (setCell gs.board (argmax vals / BOARD_SIZE)
      (argmax vals % BOARD_SIZE) gs.ai_symbol) gs.ai_symbol = false)
    (hdraw : is_draw (setCell gs.board (argmax vals / BOARD_SIZE)
      (argmax vals % BOARD_SIZE) gs.ai_symbol) = false) :
    ai_move_f (fuel + 1) Q gs = some
      ({ gs with
          board := setCell gs.board (argmax vals / BOARD_SIZE)
            (argmax vals % BOARD_SIZE) gs.ai_symbol
          buttons := setCell gs.buttons (argmax vals / BOARD_SIZE)
            (argmax vals % BOARD_SIZE) gs.ai_symbol
          current_player := gs.human_symbol }, []) := by
  simp only [ai_move_f, hq]
  rw [if_pos hemp]
  simp only [hwin, hdraw]
  rfl

/-- The `end_game` with distinct symbols: surfaces the message and resets the
game to an empty board with the human to move (no AI re-trigger). -/
theorem end_game_reset (fuel : Nat) (Q : QTable) (gs : GameState) (msg : Message)
    (hne : ¬ (gs.human_symbol = gs.ai_symbol)) :
    end_game_f (fuel + 2) Q gs msg = some
      ({ gs with
          board := empty_board
          buttons := empty_board
          current_player := gs.human_symbol }, [msg]) := by
  simp only [end_game_f, reset_game_f]
  rw [if_neg hne]

/-- An invalid click (occupied cell or not the human's turn) is silently
ignored: no state change, no message. -/
theorem make_move_invalid (fuel : Nat) (Q : QTable) (gs : GameState) (row col : Nat)
    (h : ¬ (getCell gs.board row col = Cell.empty ∧
      gs.current_player = gs.human_symbol)) :
    make_move_f fuel Q gs row col = some (gs, []) := by
  unfold make_move_f
  rw [if_neg h]

/-- A valid winning click: human mark applied, win message surfaced, game
reset. -/
theorem make_move_win (fuel : Nat) (Q : QTable) (gs : GameState) (row col : Nat)
    (h : getCell gs.board row col = Cell.empty ∧ gs.current_player = gs.human_symbol)
    (hwin : is_winner (setCell gs.board row col gs.human_symbol) gs.human_symbol = true)
    (hne : ¬ (gs.human_symbol = gs.ai_symbol)) :
    make_move_f (fuel + 2) Q gs row col = some
      ({ gs with
          board := empty_board
          buttons := empty_board
          current_player := gs.human_symbol },
        [Message.playerWins gs.human_symbol]) := by
  unfold make_move_f
  rw [if_pos h]
  simp only [hwin, if_true]
  exact end_game_reset fuel Q _ _ hne

/-- A valid drawing click: human mark applied, draw message surfaced, game
reset. -/
theorem make_move_draw (fuel : Nat) (Q : QTable) (gs : GameState) (row col : Nat)
    (h : getCell gs.board row col = Cell.empty ∧ gs.current_player = gs.human_symbol)
    (hwin : is_winner (setCell gs.board row col gs.human_symbol) gs.human_symbol = false)
    (hdraw : is_draw (setCell gs.board row col gs.human_symbol) = true)
    (hne : ¬ (gs.human_symbol = gs.ai_symbol)) :
    make_move_f (fuel + 2) Q gs row col = some
      ({ gs with
          board := empty_board
          buttons := empty_board
          current_player := gs.human_symbol },
        [Message.draw]) := by
  unfold make_move_f
  rw [if_pos h]
  simp only [hwin, hdraw]
  exact end_game_reset fuel Q _ _ hne

/-- A valid non-terminal click: human mark applied, turn handed to the AI,
`ai_move` invoked. -/
theorem make_move_continue (fuel : Nat) (Q : QTable) (gs : GameState) (row col : Nat)
    (h : getCell gs.board row col = Cell.empty ∧ gs.current_player = gs.human_symbol)
    (hwin : is_winner (setCell gs.board row col gs.human_symbol) gs.human_symbol = false)
    (hdraw : is_draw (setCell gs.board row col gs.human_symbol) = false) :
    make_move_f fuel Q gs row col = ai_move_f fuel Q
      { gs with
          board := setCell gs.board row col gs.human_symbol
          buttons := setCell gs.buttons row col gs.human_symbol
          current_player := gs.ai_symbol } := by
  unfold make_move_f
  rw [if_pos h]
  simp only [hwin, hdraw]
  rfl

/-- Once the current player is the AI and the AI never moves, every click
is rejected: the session state is frozen. -/
theorem run_clicks_frozen (Q : QTable) (gs : GameState)
    (hcur : gs.current_player = gs.ai_symbol)
    (hne : ¬ (gs.human_symbol = gs.ai_symbol)) :
    ∀ clicks, run_clicks Q gs clicks = some (gs, []) := by
  intro clicks
  induction clicks with
  | nil => rfl
  | cons p rest ih =>
    obtain ⟨r, c⟩ := p
    have hnv : ¬ (getCell gs.board r c = Cell.empty ∧
        gs.current_player = gs.human_symbol) := by
      rintro ⟨_, h2⟩
      rw [hcur] at h2
      exact hne h2.symm
    have hmm : make_move Q gs r c = some (gs, []) :=
      make_move_invalid FUEL Q gs r c hnv
    simp [run_clicks, hmm, ih]

/-! ## Claim theorems -/

/-- Claim C1 (counterexample): on the full all-`'X'` board — full and won
by `'X'` — `is_draw` still returns `true`, so `is_draw` is not "every cell
non-empty and `is_winner` false for both players": the winner conjunct is
absent from the code. -/
theorem draw_claim_counterexample :
    ¬ (is_draw fullX = true ↔
        ((∀ i, i < BOARD_SIZE → ∀ j, j < BOARD_SIZE →
            ¬ (getCell fullX i j = Cell.empty)) ∧
         is_winner fullX Cell.X = false ∧ is_winner fullX Cell.O = false)) := by
  decide

/-- Claim C1 (amended): `is_draw` returns `true` iff every cell is
non-empty — fullness only, with no winner check; in particular on the full
winning board `fullX` it returns `true` even though `is_winner` holds, so
callers must check the win first. -/
theorem is_draw_iff_full (board : Board) :
    (is_draw board = true ↔ ∀ row ∈ board, ∀ c ∈ row, ¬ (c = Cell.empty)) ∧
    (is_draw fullX = true ∧ is_winner fullX Cell.X = true) := by
  constructor
  · simp [is_draw, List.all_eq_true]
  · decide

/-- Witness for the amended C1 at the concrete full winning board. -/
theorem is_draw_iff_full_witness :
    is_draw fullX = true ∧ is_winner fullX Cell.X = true :=
  (is_draw_iff_full empty_board).2

/-- Claim C2 (counterexample): the training state actually produced by
the first turn of the first episode (`'O'` placed at `(0, 0)`, `'X'` to
move) refutes the claim: when the policy then selects occupied action `0`,
the turn returns the state entirely unchanged — the mover stays `'X'`
rather than alternating (`switch_player` would change it), and the
Q-table is untouched, so no Learner update happens. -/
theorem occupied_turn_counterexample :
    ∃ ts : TrainState, run_episode [] [(true, 0)] = some ts ∧
      ¬ (getCell ts.board 0 0 = Cell.empty) ∧
      train_turn ts true 0 = some ts ∧
      ts.current_player = Cell.X ∧
      ¬ (switch_player ts.current_player = ts.current_player) := by
  have hv : qlookup (start_episode []).Q (start_episode []).state = some zeros25 := by
    rfl
  have hca : choose_action (start_episode []).Q (start_episode []).state true 0 =
      some 0 := by rfl
  have hemp : getCell (start_episode []).board (0 / BOARD_SIZE) (0 % BOARD_SIZE) =
      Cell.empty := by decide
  obtain ⟨u, hturn, _⟩ := train_turn_empty_spec (start_episode []) true 0 0 zeros25
    hca hv hemp
  refine ⟨applied_turn (start_episode []) 0 u, ?_, ?_, ?_, ?_, ?_⟩
  · show run_turns (start_episode []) [(true, 0)] = _
    simp only [run_turns]
    rw [if_neg (by decide : ¬ ((start_episode []).done = true))]
    rw [hturn]
  · show ¬ (getCell (setCell (start_episode []).board (0 / BOARD_SIZE)
      (0 % BOARD_SIZE) (start_episode []).current_player) 0 0 = Cell.empty)
    decide
  · refine train_turn_occupied _ true 0 0 rfl ?_
    show ¬ (getCell (setCell (start_episode []).board (0 / BOARD_SIZE)
      (0 % BOARD_SIZE) (start_episode []).current_player) (0 / BOARD_SIZE)
      (0 % BOARD_SIZE) = Cell.empty)
    decide
  · show switch_player (start_episode []).current_player = Cell.X
    decide
  · show ¬ (switch_player (switch_player (start_episode []).current_player) =
      switch_player (start_episode []).current_player)
    decide

/-- Claim C2 (amended): whenever the training policy selects an action
targeting an occupied cell, the iteration is a complete no-op that does
not consume the turn: board, Q-table and mover are unchanged, no Learner
update is invoked, and the same player selects again. -/
theorem training_occupied_selection_noop (ts : TrainState) (e : Bool) (r : Nat)
    (a : Nat) (hca : choose_action ts.Q ts.state e r = some a)
    (hocc : ¬ (getCell ts.board (a / BOARD_SIZE) (a % BOARD_SIZE) = Cell.empty)) :
    train_turn ts e r = some ts :=
  train_turn_occupied ts e r a hca hocc

/-- Witness for the amended C2 at the concrete training state. -/
theorem training_occupied_selection_noop_witness :
    train_turn cexTS true 0 = some cexTS :=
  training_occupied_selection_noop cexTS true 0 0 (by decide) (by decide)

/-- Claim C8: the state codec `board_to_tuple` is pure, total and
deterministic, and yields equal keys exactly for boards with identical
cell contents. -/
theorem state_codec_injective (b₁ b₂ : Board) :
    (board_to_tuple b₁ = board_to_tuple b₂ ↔ b₁ = b₂) ∧
    board_to_tuple b₁ = board_to_tuple b₁ := by
  refine ⟨?_, rfl⟩
  rw [board_to_tuple_eq, board_to_tuple_eq]
  constructor
  · intro h
    injection h
  · intro h
    rw [h]

/-- Witness for C8: two concrete distinct boards get distinct keys. -/
theorem state_codec_injective_witness :
    ¬ (board_to_tuple singleX = board_to_tuple empty_board) :=
  fun h => absurd ((state_codec_injective singleX empty_board).1.mp h) (by decide)

/-- Claim C3: `update_q_table` replaces `value(s, a)` by
`value(s, a) + learningRate * (r + discountFactor * value(s', bestAction(s'))
- value(s, a))`, changes no other binding, and — at the spec's numeric
example (all-zero `value(S, ·)`, next-state maximum `0.8`, reward `0`) —
writes `0.072`. -/
theorem qlearning_update_formula (Q : QTable) (s s' : StateKey) (a : Nat) (r : ℚ)
    (v w : List ℚ) (hs : qlookup Q s = some v) (hs' : qlookup Q s' = some w) :
    (∃ Q', update_q_table Q s a r s' = some Q' ∧
      qlookup Q' s = some (v.set a (v.getD a 0 +
        LEARNING_RATE * ((r + DISCOUNT_FACTOR * w.getD (argmax w) 0) - v.getD a 0))) ∧
      (∀ t, ¬ (t = s) → qlookup Q' t = qlookup Q t)) ∧
    (∃ Qex, update_q_table exQ keyA 0 0 keyB = some Qex ∧
      (qlookup Qex keyA).map (fun vec => vec.getD 0 0) = some (72 / 1000)) := by
  constructor
  · refine ⟨_, update_q_table_eq Q s s' a r v w hs hs', ?_, ?_⟩
    · exact qlookup_qset_self Q s _ v hs
    · intro t ht
      exact qlookup_qset_ne Q s t _ ht
  · have hA : qlookup exQ keyA = some zeros25 := rfl
    have hB : qlookup exQ keyB = some (zeros25.set 3 (8 / 10)) := rfl
    refine ⟨_, update_q_table_eq exQ keyA keyB 0 0 zeros25 (zeros25.set 3 (8 / 10))
      hA hB, ?_⟩
    rw [qlookup_qset_self exQ keyA _ zeros25 hA]
    have hag : argmax (zeros25.set 3 (8 / 10)) = 3 := by
      norm_num [zeros25, BOARD_SIZE, List.replicate, argmax]
    have hg3 : (zeros25.set 3 (8 / 10)).getD 3 0 = 8 / 10 := rfl
    have hg0 : zeros25.getD 0 0 = 0 := rfl
    have hlen : 0 < zeros25.length := by simp [zeros25, BOARD_SIZE]
    rw [hag, hg3, hg0]
    simp only [Option.map_some']
    rw [getD_set_eq zeros25 0 _ 0 hlen]
    norm_num [LEARNING_RATE, DISCOUNT_FACTOR]

/-- Witness for C3 at the concrete example table: the updated value is
exactly `0.072`. -/
theorem qlearning_update_formula_witness :
    ∃ Qex, update_q_table exQ keyA 0 0 keyB = some Qex ∧
      (qlookup Qex keyA).map (fun vec => vec.getD 0 0) = some (72 / 1000) :=
  (qlearning_update_formula exQ keyA keyB 0 0 zeros25 (zeros25.set 3 (8 / 10))
    rfl rfl).2

/-- Claim C4: `np.argmax` (the `bestAction` of the Value Table) returns
the index of a maximal value, lowest index on ties (e.g. `1` on the entry
`[0, 5, 5, 0, ..., 0]`); both the exploitation branch of `choose_action`
and the interactive `ai_move` select exactly this index. -/
theorem best_action_tiebreak :
    (∀ l : List ℚ, ¬ (l = []) → argmax l < l.length) ∧
    (∀ (l : List ℚ) (i : Nat), i < l.length → l.getD i 0 ≤ l.getD (argmax l) 0) ∧
    (∀ (l : List ℚ) (i : Nat), i < l.length → l.getD (argmax l) 0 ≤ l.getD i 0 →
      argmax l ≤ i) ∧
    argmax exampleEntry = 1 ∧
    (∀ (Q : QTable) (s : StateKey) (vals : List ℚ) (r : Nat),
      qlookup Q s = some vals → choose_action Q s false r = some (argmax vals)) ∧
    (∀ (Q : QTable) (gs : GameState) (vals : List ℚ),
      qlookup Q (board_to_tuple gs.board) = some vals →
      getCell gs.board (argmax vals / BOARD_SIZE) (argmax vals % BOARD_SIZE) =
        Cell.empty →
      is_winner (setCell gs.board (argmax vals / BOARD_SIZE)
        (argmax vals % BOARD_SIZE) gs.ai_symbol) gs.ai_symbol = false →
      is_draw (setCell gs.board (argmax vals / BOARD_SIZE)
        (argmax vals % BOARD_SIZE) gs.ai_symbol) = false →
      ai_move Q gs = some
        ({ gs with
            board := setCell gs.board (argmax vals / BOARD_SIZE)
              (argmax vals % BOARD_SIZE) gs.ai_symbol
            buttons := setCell gs.buttons (argmax vals / BOARD_SIZE)
              (argmax vals % BOARD_SIZE) gs.ai_symbol
            current_player := gs.human_symbol }, [])) := by
  refine ⟨argmax_lt_length, argmax_le, argmax_first, by decide, ?_, ?_⟩
  · intro Q s vals r h
    simp [choose_action, h]
  · intro Q gs vals hq hemp hwin hdraw
    show ai_move_f (7 + 1) Q gs = _
    exact ai_move_place 7 Q gs vals hq hemp hwin hdraw

/-- Witness for C4: the exploitation branch at a concrete table. -/
theorem best_action_tiebreak_witness :
    choose_action exQ keyA false 0 = some (argmax zeros25) :=
  best_action_tiebreak.2.2.2.2.1 exQ keyA zeros25 0 rfl

/-- Claim C7: the exploration rate is decayed multiplicatively exactly
once per episode — after `k` episodes it equals `rate * decay ^ k` no
matter how long each episode was — and the resulting sequence is
non-negative and monotonically non-increasing. -/
theorem exploration_decay_once_per_episode (Q : QTable) (rate : ℚ)
    (eps : List (List (Bool × Nat))) (Q' : QTable) (rate' : ℚ)
    (h : train_ai Q rate eps = some (Q', rate')) :
    rate' = rate * EXPLORATION_DECAY ^ eps.length ∧
    (0 ≤ rate → 0 ≤ rate' ∧ rate' ≤ rate) ∧
    (∀ k : Nat,
      0 ≤ EXPLORATION_RATE * EXPLORATION_DECAY ^ k ∧
      EXPLORATION_RATE * EXPLORATION_DECAY ^ (k + 1) ≤
        EXPLORATION_RATE * EXPLORATION_DECAY ^ k) := by
  have hd0 : (0 : ℚ) ≤ EXPLORATION_DECAY := by norm_num [EXPLORATION_DECAY]
  have hd1 : EXPLORATION_DECAY ≤ (1 : ℚ) := by norm_num [EXPLORATION_DECAY]
  have hr := train_ai_rate eps Q rate Q' rate' h
  refine ⟨hr, ?_, ?_⟩
  · intro h0
    constructor
    · rw [hr]
      exact mul_nonneg h0 (pow_nonneg hd0 _)
    · rw [hr]
      calc rate * EXPLORATION_DECAY ^ eps.length ≤ rate * 1 :=
            mul_le_mul_of_nonneg_left (pow_le_one₀ hd0 hd1) h0
        _ = rate := mul_one rate
  · intro k
    constructor
    · exact mul_nonneg (by norm_num [EXPLORATION_RATE]) (pow_nonneg hd0 _)
    · apply mul_le_mul_of_nonneg_left _ (by norm_num [EXPLORATION_RATE])
      calc EXPLORATION_DECAY ^ (k + 1)
            = EXPLORATION_DECAY ^ k * EXPLORATION_DECAY := pow_succ _ _
        _ ≤ EXPLORATION_DECAY ^ k * 1 :=
            mul_le_mul_of_nonneg_left hd1 (pow_nonneg hd0 _)
        _ = EXPLORATION_DECAY ^ k := mul_one _

/-- Witness for C7: the rate sequence at episode 1000 (the configured
episode count) is non-negative and non-increasing. -/
theorem exploration_decay_once_per_episode_witness :
    0 ≤ EXPLORATION_RATE * EXPLORATION_DECAY ^ 1000 ∧
    EXPLORATION_RATE * EXPLORATION_DECAY ^ 1001 ≤
      EXPLORATION_RATE * EXPLORATION_DECAY ^ 1000 :=
  (exploration_decay_once_per_episode [] 1 [] [] 1 rfl).2.2 1000

/-- Claim C10: `initialize_q_table` only ever inserts the zero vector of
length `BOARD_SIZE * BOARD_SIZE` (and never overwrites an existing entry),
`update_q_table` preserves the length of every vector, and hence every
table produced by a whole training run binds only vectors of length 25. -/
theorem value_table_shape :
    (∀ (Q : QTable) (b : Board),
      (qlookup Q (board_to_tuple b) = none →
        initialize_q_table Q b =
          (board_to_tuple b, List.replicate (BOARD_SIZE * BOARD_SIZE) (0 : ℚ)) :: Q) ∧
      (∀ v, qlookup Q (board_to_tuple b) = some v → initialize_q_table Q b = Q)) ∧
    (∀ (Q : QTable) (s s' : StateKey) (a : Nat) (r : ℚ) (Q' : QTable),
      update_q_table Q s a r s' = some Q' → WFQ Q → WFQ Q') ∧
    (∀ (Q : QTable) (rate : ℚ) (eps : List (List (Bool × Nat)))
      (Q' : QTable) (rate' : ℚ),
      train_ai Q rate eps = some (Q', rate') → WFQ Q → KeysO Q → WFQ Q') := by
  refine ⟨?_, ?_, ?_⟩
  · intro Q b
    constructor
    · intro h
      unfold initialize_q_table
      rw [h]
    · intro v h
      unfold initialize_q_table
      rw [h]
  · intro Q s s' a r Q' hupd hw
    cases hs' : qlookup Q s' with
    | none =>
      unfold update_q_table at hupd
      rw [hs'] at hupd
      cases hupd
    | some w =>
      cases hs : qlookup Q s with
      | none =>
        unfold update_q_table at hupd
        rw [hs', hs] at hupd
        cases hupd
      | some v =>
        rw [update_q_table_eq Q s s' a r v w hs hs'] at hupd
        injection hupd with hupd
        intro p hp
        rw [← hupd] at hp
        rcases mem_qset _ _ _ _ hp with h1 | h2
        · exact hw _ h1
        · rw [h2]
          show (v.set a _).length = BOARD_SIZE * BOARD_SIZE
          rw [List.length_set]
          exact hw _ (qlookup_mem _ _ _ hs)
  · intro Q rate eps Q' rate' htr hw hk
    obtain ⟨Q'', rate'', htr', hw', _⟩ := Inv_train_ai eps Q rate hw hk
    rw [htr] at htr'
    injection htr' with hpair
    obtain ⟨h1, _⟩ := Prod.mk.injEq .. ▸ hpair
    exact h1 ▸ hw'

/-- Witness for C10: inserting into the empty table yields exactly the
zero vector binding. -/
theorem value_table_shape_witness :
    initialize_q_table [] empty_board =
      (board_to_tuple empty_board,
        List.replicate (BOARD_SIZE * BOARD_SIZE) (0 : ℚ)) :: [] :=
  (value_table_shape.1 [] empty_board).1 rfl

/-- Claim C5 (code bug): during training every lookup is on an ensured
key — `train_ai` can never hit a missing key, from any starting table —
but in interactive play `ai_move` looks up `Q[board_to_tuple(board)]`
without ensuring it.  Training always moves `'O'` first, so every trained
key is the empty board's or contains an `'O'`; hence after any training
run started from a training-shaped table (such as the empty one), the
board holding only the human's first `'X'` has no entry, and the first
click of a human playing `'X'` first crashes `ai_move` with the modelled
`KeyError`. -/
theorem missing_entry_unreachable_in_training_only :
    (∀ (Q : QTable) (rate : ℚ) (eps : List (List (Bool × Nat))),
      (train_ai Q rate eps).isSome = true) ∧
    (∀ (Q₀ : QTable) (rate : ℚ) (eps : List (List (Bool × Nat)))
      (Q' : QTable) (rate' : ℚ),
      WFQ Q₀ → KeysO Q₀ → train_ai Q₀ rate eps = some (Q', rate') →
      qlookup Q' (board_to_tuple singleX) = none ∧
      ai_move Q' after_first_click = none ∧
      make_move Q' fresh_game 0 0 = none) := by
  constructor
  · intro Q rate eps
    exact train_ai_total eps Q rate
  · intro Q₀ rate eps Q' rate' hw hk htr
    obtain ⟨Q'', rate'', htr', hw', hk'⟩ := Inv_train_ai eps Q₀ rate hw hk
    rw [htr] at htr'
    injection htr' with hpair
    have hQ : Q'' = Q' := (congrArg Prod.fst hpair).symm
    rw [hQ] at hk'
    have hnone : qlookup Q' (board_to_tuple singleX) = none := by
      cases hq : qlookup Q' (board_to_tuple singleX) with
      | none => rfl
      | some v =>
        rcases hk' _ (qlookup_mem _ _ _ hq) with h1 | h2
        · have h1' : board_to_tuple singleX = board_to_tuple empty_board := h1
          exact absurd h1' (by decide)
        · have h2' : keyHasO (board_to_tuple singleX) = true := h2
          exact absurd h2' (by decide)
    refine ⟨hnone, ?_, ?_⟩
    · show ai_move_f (7 + 1) Q' after_first_click = none
      exact ai_move_missing 7 Q' after_first_click hnone
    · show make_move_f (7 + 1) Q' fresh_game 0 0 = none
      rw [make_move_continue (7 + 1) Q' fresh_game 0 0 (by decide) (by decide)
        (by decide)]
      exact ai_move_missing 7 Q' _ hnone

/-- Witness for C5: with the empty initial table and zero episodes, the
single-`'X'` key is missing and the first click crashes. -/
theorem missing_entry_witness :
    qlookup [] (board_to_tuple singleX) = none ∧
    ai_move [] after_first_click = none ∧
    make_move [] fresh_game 0 0 = none :=
  missing_entry_unreachable_in_training_only.2 [] 1 [] [] 1
    (fun p hp => absurd hp (List.not_mem_nil p))
    (fun p hp => absurd hp (List.not_mem_nil p)) rfl

/-- Claim C6: a human move request on an occupied cell or out of turn is
silently ignored — board, buttons and current player unchanged, no message
surfaced; a valid request applies the mark and yields exactly one of the
three outcomes: human win (message, then reset), draw (message, then
reset), or continue (turn handed to the AI). -/
theorem human_move_validation (Q : QTable) (gs : GameState) (row col : Nat)
    (hne : ¬ (gs.human_symbol = gs.ai_symbol)) :
    (¬ (getCell gs.board row col = Cell.empty ∧
        gs.current_player = gs.human_symbol) →
      make_move Q gs row col = some (gs, [])) ∧
    ((getCell gs.board row col = Cell.empty ∧
        gs.current_player = gs.human_symbol) →
      ((is_winner (setCell gs.board row col gs.human_symbol) gs.human_symbol = true →
        make_move Q gs row col = some
          ({ gs with
              board := empty_board
              buttons := empty_board
              current_player := gs.human_symbol },
            [Message.playerWins gs.human_symbol])) ∧
       (is_winner (setCell gs.board row col gs.human_symbol) gs.human_symbol = false →
        is_draw (setCell gs.board row col gs.human_symbol) = true →
        make_move Q gs row col = some
          ({ gs with
              board := empty_board
              buttons := empty_board
              current_player := gs.human_symbol }, [Message.draw])) ∧
       (is_winner (setCell gs.board row col gs.human_symbol) gs.human_symbol = false →
        is_draw (setCell gs.board row col gs.human_symbol) = false →
        make_move Q gs row col = ai_move Q
          { gs with
              board := setCell gs.board row col gs.human_symbol
              buttons := setCell gs.buttons row col gs.human_symbol
              current_player := gs.ai_symbol }))) := by
  constructor
  · intro h
    exact make_move_invalid FUEL Q gs row col h
  · intro hv
    refine ⟨?_, ?_, ?_⟩
    · intro hwin
      show make_move_f (6 + 2) Q gs row col = _
      exact make_move_win 6 Q gs row col hv hwin hne
    · intro hwin hdraw
      show make_move_f (6 + 2) Q gs row col = _
      exact make_move_draw 6 Q gs row col hv hwin hdraw hne
    · intro hwin hdraw
      exact make_move_continue FUEL Q gs row col hv hwin hdraw

/-- Witness for C6: a click while it is the AI's turn is silently
ignored. -/
theorem human_move_validation_witness :
    make_move stuckQ stuck_game 1 1 = some (stuck_game, []) :=
  (human_move_validation stuckQ stuck_game 1 1 (by decide)).1 (by decide)

/-- Claim C9: when the interactive AI's greedy action targets an occupied
cell, `ai_move` changes nothing — board, button labels and
`current_player` all unchanged — and since the current player stays the
AI's symbol, every subsequent click is rejected: no session operation can
change the state from then on. -/
theorem ai_occupied_freezes_session (Q : QTable) (gs : GameState) (vals : List ℚ)
    (hq : qlookup Q (board_to_tuple gs.board) = some vals)
    (hocc : ¬ (getCell gs.board (argmax vals / BOARD_SIZE)
      (argmax vals % BOARD_SIZE) = Cell.empty))
    (hcur : gs.current_player = gs.ai_symbol)
    (hne : ¬ (gs.human_symbol = gs.ai_symbol)) :
    ai_move Q gs = some (gs, []) ∧
    ∀ clicks, run_clicks Q gs clicks = some (gs, []) := by
  constructor
  · show ai_move_f (7 + 1) Q gs = some (gs, [])
    exact ai_move_occ 7 Q gs vals hq hocc
  · exact run_clicks_frozen Q gs hcur hne

/-- Witness for C9 at the concrete stuck game. -/
theorem ai_occupied_freezes_session_witness :
    ai_move stuckQ stuck_game = some (stuck_game, []) ∧
    run_clicks stuckQ stuck_game [(1, 1), (2, 2)] = some (stuck_game, []) := by
  have h := ai_occupied_freezes_session stuckQ stuck_game zeros25 (by decide)
    (by decide) rfl (by decide)
  exact ⟨h.1, h.2 [(1, 1), (2, 2)]⟩

end TTT
